import Mathlib

/-!
Shallow embedding of the `listsample` package
(`vendor/github.com/sendgrid/mc-contacts/lib/listsample/batch_builder.go`):
a bounded recency-list store over a clustered Redis sorted-set backend.

Modelling conventions:
* `time.Time` values are represented by their `Unix()` epoch seconds
  (`Int`), which is the only view the code uses (`write.updatedAt.Unix()`).
* Go `int64` arithmetic wraps; `int64wrap` makes the wrap explicit.
* The Redis backend is external to the repository; its sorted sets are
  modelled canonically as association lists `member, score`, kept sorted
  by `(score, member)` lexicographically — exactly Redis's rank order —
  with at most one entry per member.
* The Go `writtenKeys map[string]bool` iterates in unspecified order; we
  model it as the first-occurrence deduplicated key list. Truncations of
  distinct keys commute, so the final state is order-independent.
* Logging and metrics calls are pure diagnostics and are not modelled,
  except that the presence of a metrics logger is tracked as a `Bool` in
  the `NewDAL` construction model.
-/

namespace ListSample

/-- Go `int64` two's-complement wraparound, made explicit. -/
def int64wrap (n : Int) : Int := (n + 2 ^ 63) % 2 ^ 64 - 2 ^ 63

/-- `maxRedisValue = int64(9007199254740992)` from the Go constants. -/
def maxRedisValue : Int := 9007199254740992

/-- `createKey(userID, listID)` returns `fmt.Sprintf("%s_%s", userID, listID)`. -/
def createKey (userID listID : String) : String := userID ++ "_" ++ listID

/-- `insertScore := maxRedisValue - write.updatedAt.Unix()` in Go `int64`. -/
def insertScore (updatedAt : Int) : Int := int64wrap (maxRedisValue - updatedAt)

/-- Go struct `contactDeleteMutation`. -/
structure contactDeleteMutation where
  userID : String
  listID : String
  contactID : String
deriving DecidableEq, Repr

/-- Go struct `contactWriteMutation` (embeds `contactDeleteMutation`). -/
structure contactWriteMutation extends contactDeleteMutation where
  updatedAt : Int
deriving DecidableEq, Repr

/-- Go struct `PutBatch`: the ordered delete and update mutation lists. -/
structure PutBatch where
  deletes : List contactDeleteMutation
  updates : List contactWriteMutation
deriving DecidableEq, Repr

/-- `NewListDeltaBatchBuilder` starts from the empty batch. The Go builder
holds a pointer `batch *PutBatch` and `Build` returns that very pointer, so
builder state and built batch are one object; we model the builder state as
the accumulated batch itself. -/
def NewListDeltaBatchBuilder : PutBatch := { deletes := [], updates := [] }

/-- `(*PutBatchBuilder).AddUpdate`: appends one update mutation. -/
def PutBatch.AddUpdate (b : PutBatch) (userID listID contactID : String)
    (updatedAt : Int) : PutBatch :=
  { b with updates := b.updates ++
      [{ userID := userID, listID := listID, contactID := contactID, updatedAt := updatedAt }] }

/-- `(*PutBatchBuilder).AddDelete`: appends one delete mutation. -/
def PutBatch.AddDelete (b : PutBatch) (userID listID contactID : String) : PutBatch :=
  { b with deletes := b.deletes ++
      [{ userID := userID, listID := listID, contactID := contactID }] }

/-- `(*PutBatchBuilder).Build` returns the builder's batch pointer. -/
def PutBatch.Build (b : PutBatch) : PutBatch := b

/-! ### The Redis sorted-set model -/

/-- A sorted-set entry: `(member, score)`. -/
abbrev ZEntry := String × Int

/-- Redis rank order on entries: by score ascending, ties broken by member
lexicographically — the order `ZRANGE`/`ZREMRANGEBYRANK` ranks by. -/
def zle (a b : ZEntry) : Prop := a.2 < b.2 ∨ (a.2 = b.2 ∧ a.1 ≤ b.1)

instance zle.decidableRel : DecidableRel zle := fun a b =>
  decidable_of_iff (a.2 < b.2 ∨ (a.2 = b.2 ∧ a.1 ≤ b.1)) Iff.rfl

instance zle.isTotal : IsTotal ZEntry zle := by
  constructor
  intro a b
  rcases lt_trichotomy a.2 b.2 with h | h | h
  · exact Or.inl (Or.inl h)
  · rcases le_total a.1 b.1 with h1 | h1
    · exact Or.inl (Or.inr ⟨h, h1⟩)
    · exact Or.inr (Or.inr ⟨h.symm, h1⟩)
  · exact Or.inr (Or.inl h)

instance zle.isTrans : IsTrans ZEntry zle := by
  constructor
  intro a b c hab hbc
  rcases hab with h | ⟨he, hm⟩ <;> rcases hbc with h2 | ⟨he2, hm2⟩
  · exact Or.inl (h.trans h2)
  · exact Or.inl (he2 ▸ h)
  · exact Or.inl (he ▸ h2)
  · exact Or.inr ⟨he.trans he2, hm.trans hm2⟩

instance zle.isAntisymm : IsAntisymm ZEntry zle := by
  constructor
  intro a b hab hba
  rcases hab with h | ⟨he, hm⟩ <;> rcases hba with h2 | ⟨he2, hm2⟩
  · exact absurd h2 (not_lt.mpr h.le)
  · exact absurd h (not_lt.mpr he2.le)
  · exact absurd h2 (not_lt.mpr he.le)
  · exact Prod.ext (le_antisymm hm hm2) he

/-- A Redis sorted set, canonically represented: entries in rank order,
one entry per member. -/
abbrev ZSet := List ZEntry

/-- The member column of a sorted set. -/
def keysOf (z : ZSet) : List String := z.map Prod.fst

/-- Well-formedness of the canonical representation: rank-sorted, and no
member occurs twice. -/
def ZWF (z : ZSet) : Prop := z.Sorted zle ∧ (keysOf z).Nodup

/-- `ZADD key score member`: upsert the member with the given score. -/
def zadd (member : String) (score : Int) (z : ZSet) : ZSet :=
  List.orderedInsert zle (member, score) (z.filter (fun p => p.1 != member))

/-- `ZREM key member`: remove the member if present. -/
def zrem (member : String) (z : ZSet) : ZSet := z.filter (fun p => p.1 != member)

/-- Redis start-index resolution: a negative index counts from the end. -/
def effStart (start : Int) (len : Nat) : Nat :=
  if start < 0 then ((len : Int) + start).toNat else start.toNat

/-- `ZREMRANGEBYRANK key start -1`: drop every entry of rank ≥ start
(resolved Redis-style), keeping the prefix of lower ranks. -/
def ztrunc (start : Int) (z : ZSet) : ZSet := z.take (effStart start z.length)

/-- `ZRANGE key 0 stop`: the members of ranks 0..stop inclusive, the stop
index resolved Redis-style (negative counts from the end). -/
def zrange0 (stop : Int) (z : ZSet) : List String :=
  (z.take (if stop < 0 then ((z.length : Int) + stop + 1).toNat else stop.toNat + 1)).map
    Prod.fst

/-- The backing store: one sorted set per key. -/
abbrev Store := String → ZSet

/-- The empty store. -/
def Store.empty : Store := fun _ => []

/-- Every per-key set is well-formed. -/
def StoreWF (s : Store) : Prop := ∀ k, ZWF (s k)

/-! ### The commands `Put` issues, in order -/

/-- One store command as issued by `redisDAL.Put` via `conn.Do`. -/
inductive Cmd where
  | zaddCmd (key : String) (score : Int) (member : String)
  | zremCmd (key : String) (member : String)
  | ztruncCmd (key : String) (start : Int)
deriving DecidableEq, Repr

/-- Effect of one command on the store. -/
def applyCmd (c : Cmd) (s : Store) : Store :=
  match c with
  | .zaddCmd key score member => fun k => if k = key then zadd member score (s k) else s k
  | .zremCmd key member => fun k => if k = key then zrem member (s k) else s k
  | .ztruncCmd key start => fun k => if k = key then ztrunc start (s k) else s k

/-- Apply a command list left to right. -/
def foldCmds (cs : List Cmd) (s : Store) : Store := cs.foldl (fun t c => applyCmd c t) s

/-- The deduplicated `writtenKeys` of a batch: every key touched by an
update or a delete (Go collects them in a map; order is immaterial). -/
def touchedKeys (b : PutBatch) : List String :=
  (b.updates.map (fun w => createKey w.userID w.listID) ++
    b.deletes.map (fun d => createKey d.userID d.listID)).dedup

/-- The update phase of `Put`: one `zadd` per update mutation, in batch
order (the first loop of `redisDAL.Put`). -/
def updCmds (b : PutBatch) : List Cmd :=
  b.updates.map
    (fun w => Cmd.zaddCmd (createKey w.userID w.listID) (insertScore w.updatedAt) w.contactID)

/-- The delete phase of `Put`: one `zrem` per delete mutation, in batch
order (the second loop of `redisDAL.Put`). -/
def delCmds (b : PutBatch) : List Cmd :=
  b.deletes.map (fun d => Cmd.zremCmd (createKey d.userID d.listID) d.contactID)

/-- The truncation phase of `Put`: one `ZREMRANGEBYRANK key maxSetSize -1`
per touched key (the third loop of `redisDAL.Put`). -/
def truncCmds (maxSetSize : Int) (b : PutBatch) : List Cmd :=
  (touchedKeys b).map (fun k => Cmd.ztruncCmd k maxSetSize)

/-- The exact command sequence `redisDAL.Put` issues: every update's
`zadd` in batch order, then every delete's `zrem` in batch order, then one
`ZREMRANGEBYRANK key maxSetSize -1` per touched key. -/
def putCmds (maxSetSize : Int) (b : PutBatch) : List Cmd :=
  updCmds b ++ delCmds b ++ truncCmds maxSetSize b

/-- Run commands against the store with a failure oracle: `oracle i` is the
error, if any, of the i-th `conn.Do` call. On the first failing call the
run stops at once — the Go code `return err`s — leaving all previously
applied effects in place and returning that call's error. -/
def runCmds (oracle : Nat → Option String) : List Cmd → Store → Store × Option String
  | [], s => (s, none)
  | c :: cs, s =>
    match oracle 0 with
    | some e => (s, some e)
    | none => runCmds (fun n => oracle (n + 1)) cs (applyCmd c s)

/-- `redisDAL.Put` with an explicit failure oracle for the connection. -/
def Put (maxSetSize : Int) (oracle : Nat → Option String) (b : PutBatch) (s : Store) :
    Store × Option String :=
  runCmds oracle (putCmds maxSetSize b) s

/-- A successful `redisDAL.Put`: every command succeeds. -/
def PutOk (maxSetSize : Int) (b : PutBatch) (s : Store) : Store :=
  foldCmds (putCmds maxSetSize b) s

/-- `redisDAL.Get`: `redis.Strings(conn.Do("ZRANGE", key, 0, maxSize))`
on `key = createKey(userID, listID)`. -/
def Get (s : Store) (userID listID : String) (maxSize : Int) : List String :=
  zrange0 maxSize (s (createKey userID listID))

/-! ### `NewDAL` construction -/

/-- Go struct `ClusterOpts` (`ConnectionIdleTimeout` in nanoseconds). -/
structure ClusterOpts where
  MaxActiveConnections : Int
  MinIdleConnections : Int
  ConnectionIdleTimeout : Int
  BoostrapHost : String
deriving DecidableEq, Repr

/-- Go struct `redisDAL` before/after option application. A `none`
`clusterOpts` is Go's nil pointer; `hasMetricsLogger` tracks whether the
metrics logger field is non-nil. Zero values match Go's `&redisDAL{}`. -/
structure redisDAL where
  hasMetricsLogger : Bool := false
  maxSetSize : Int := 0
  clusterOpts : Option ClusterOpts := none
deriving DecidableEq, Repr

/-- `defaultMaxSortedSetBuffer = 100`. -/
def defaultMaxSortedSetBuffer : Int := 100

/-- `NewClusterOptions()`: defaults, with the bootstrap host left empty. -/
def NewClusterOptions : ClusterOpts :=
  { MaxActiveConnections := 100, MinIdleConnections := 50,
    ConnectionIdleTimeout := 60000000000, BoostrapHost := "" }

/-- A concrete valid `ClusterOpts` value with bootstrap host `"h"`, used
by concrete instantiations below. -/
def hostOpts : ClusterOpts :=
  { MaxActiveConnections := 100, MinIdleConnections := 50,
    ConnectionIdleTimeout := 60000000000, BoostrapHost := "h" }

/-- `WithClusterOptions` functional option (argument may be Go nil). -/
def WithClusterOptions (clusterOptions : Option ClusterOpts) (r : redisDAL) : redisDAL :=
  { r with clusterOpts := clusterOptions }

/-- `WithMaxSortedBuffer` functional option. -/
def WithMaxSortedBuffer (maxBufferSize : Int) (r : redisDAL) : redisDAL :=
  { r with maxSetSize := maxBufferSize }

/-- `WithMetricsLogger` functional option; `present` is whether the passed
logger interface value is non-nil. -/
def WithMetricsLogger (present : Bool) (r : redisDAL) : redisDAL :=
  { r with hasMetricsLogger := present }

/-- `NewDAL(options...)`. The initial `cluster.Refresh()` runs against the
external cluster; `refreshErr` is its outcome (`none` = success). Returns
either the configured DAL or the first error, exactly as the Go code:
options applied first, then the two configuration checks, then defaults,
then the refresh. -/
def NewDAL (options : List (redisDAL → redisDAL)) (refreshErr : Option String) :
    Except String redisDAL :=
  let r := options.foldl (fun r opt => opt r) {}
  match r.clusterOpts with
  | none => .error "You must specify clusterOptions via WithClusterOptions"
  | some o =>
    if o.BoostrapHost = "" then
      .error "You must specify the BoostrapHost in the cluster options"
    else
      let r2 : redisDAL :=
        { r with hasMetricsLogger := true,
                 maxSetSize := if r.maxSetSize = 0 then defaultMaxSortedSetBuffer
                               else r.maxSetSize }
      match refreshErr with
      | some e => .error e
      | none => .ok r2

/-! ## Arithmetic of the score encoding -/

/-- `int64wrap` is the identity on the representable range. -/
theorem int64wrap_eq_of_bounds (n : Int) (hlo : -(2 ^ 63) ≤ n) (hhi : n < 2 ^ 63) :
    int64wrap n = n := by
  unfold int64wrap
  have h1 : 0 ≤ n + 2 ^ 63 := by omega
  have h2 : n + 2 ^ 63 < 2 ^ 64 := by omega
  rw [Int.emod_eq_of_lt h1 h2]
  omega

/-- On realistic epoch seconds the Go `int64` subtraction does not wrap. -/
theorem insertScore_eq (t : Int) (hlo : -(2 ^ 62) ≤ t) (hhi : t ≤ 2 ^ 62) :
    insertScore t = maxRedisValue - t := by
  unfold insertScore maxRedisValue
  refine int64wrap_eq_of_bounds _ ?_ ?_ <;> omega

/-- The score encoding is strictly antitone on realistic epoch seconds. -/
theorem insertScore_anti {t1 t2 : Int} (h1 : -(2 ^ 62) ≤ t1) (h2 : t2 ≤ 2 ^ 62)
    (hlt : t1 < t2) : insertScore t2 < insertScore t1 := by
  have hb1 : t1 ≤ 2 ^ 62 := le_of_lt (lt_of_lt_of_le hlt h2)
  have hb2 : -(2 ^ 62) ≤ t2 := le_trans h1 hlt.le
  rw [insertScore_eq t1 h1 hb1, insertScore_eq t2 hb2 h2]
  exact sub_lt_sub_left hlt maxRedisValue

/-! ## Well-formedness preservation of the sorted-set model -/

/-- Removing a member preserves well-formedness. -/
theorem zwf_zrem (m : String) {z : ZSet} (h : ZWF z) : ZWF (zrem m z) := by
  obtain ⟨hs, hn⟩ := h
  exact ⟨hs.filter _, hn.sublist ((List.filter_sublist z).map Prod.fst)⟩

/-- Taking a rank prefix preserves well-formedness. -/
theorem zwf_take (n : Nat) {z : ZSet} (h : ZWF z) : ZWF (z.take n) := by
  obtain ⟨hs, hn⟩ := h
  exact ⟨hs.sublist (List.take_sublist n z), hn.sublist ((List.take_sublist n z).map Prod.fst)⟩

/-- Truncation preserves well-formedness. -/
theorem zwf_ztrunc (k : Int) {z : ZSet} (h : ZWF z) : ZWF (ztrunc k z) := zwf_take _ h

/-- The member just upserted is not among the filtered remainder's keys. -/
theorem not_mem_keysOf_filter (m : String) (z : ZSet) :
    m ∉ keysOf (z.filter (fun p => p.1 != m)) := by
  intro hmem
  simp only [keysOf, List.mem_map, List.mem_filter, bne_iff_ne] at hmem
  obtain ⟨p, ⟨hp, hne⟩, hfst⟩ := hmem
  exact hne hfst

/-- Upserting a member preserves well-formedness. -/
theorem zwf_zadd (m : String) (sc : Int) {z : ZSet} (h : ZWF z) : ZWF (zadd m sc z) := by
  obtain ⟨hs, hn⟩ := h
  refine ⟨List.Sorted.orderedInsert _ _ (hs.filter _), ?_⟩
  have hperm : List.Perm (zadd m sc z) ((m, sc) :: z.filter (fun p => p.1 != m)) :=
    List.perm_orderedInsert zle _ _
  have hkperm : List.Perm (keysOf (zadd m sc z))
      (m :: keysOf (z.filter (fun p => p.1 != m))) := by
    simpa [keysOf] using hperm.map Prod.fst
  rw [hkperm.nodup_iff, List.nodup_cons]
  exact ⟨not_mem_keysOf_filter m z,
    hn.sublist ((List.filter_sublist z).map Prod.fst)⟩

/-- Every single command preserves store well-formedness. -/
theorem storeWF_applyCmd (c : Cmd) {s : Store} (h : StoreWF s) : StoreWF (applyCmd c s) := by
  intro key
  cases c with
  | zaddCmd k sc m =>
    by_cases hk : key = k <;> simp [applyCmd, hk]
    · exact zwf_zadd m sc (h k)
    · exact h key
  | zremCmd k m =>
    by_cases hk : key = k <;> simp [applyCmd, hk]
    · exact zwf_zrem m (h k)
    · exact h key
  | ztruncCmd k st =>
    by_cases hk : key = k <;> simp [applyCmd, hk]
    · exact zwf_ztrunc st (h k)
    · exact h key

/-- Command sequences preserve store well-formedness. -/
theorem storeWF_foldCmds (cs : List Cmd) {s : Store} (h : StoreWF s) :
    StoreWF (foldCmds cs s) := by
  induction cs generalizing s with
  | nil => exact h
  | cons c cs ih => exact ih (storeWF_applyCmd c h)

/-! ## Execution with a failure oracle -/

/-- If every command succeeds, the run applies all of them and reports no
error. -/
theorem runCmds_all_ok (cs : List Cmd) : ∀ (s : Store),
    runCmds (fun _ => none) cs s = (foldCmds cs s, none) := by
  induction cs with
  | nil => intro s; rfl
  | cons c cs ih => intro s; simpa [runCmds] using ih (applyCmd c s)

/-- If the first failing `conn.Do` call is the i-th, the run stops there:
the final store carries exactly the effects of the commands before the
failure, and the returned error is that call's error. -/
theorem runCmds_first_fail (cs : List Cmd) :
    ∀ (oracle : Nat → Option String) (s : Store) (i : Nat) (e : String),
      i < cs.length → oracle i = some e → (∀ j, j < i → oracle j = none) →
      runCmds oracle cs s = (foldCmds (cs.take i) s, some e) := by
  induction cs with
  | nil =>
    intro oracle s i e hi
    exact absurd hi (by simp)
  | cons c cs ih =>
    intro oracle s i e hi hfail hbefore
    cases i with
    | zero =>
      simp only [runCmds, hfail]
      rfl
    | succ j =>
      have h0 : oracle 0 = none := hbefore 0 (Nat.succ_pos j)
      simp only [runCmds, h0]
      exact ih (fun n => oracle (n + 1)) (applyCmd c s) j e (Nat.lt_of_succ_lt_succ hi) hfail
        (fun m hm => hbefore (m + 1) (Nat.succ_lt_succ hm))

/-! ## Claim theorems -/

/-- Claim C6: if an individual store command issued by `Put` fails (the
i-th `conn.Do` call errors), `Put` returns that command's error at once:
the resulting store carries exactly the effects of the commands issued
before the failure (no rollback) and none of the later commands — the
batch is not atomic across keys or phases. -/
theorem putFirstFailureAborts (maxSetSize : Int) (b : PutBatch) (s : Store)
    (oracle : Nat → Option String) (i : Nat) (e : String)
    (hi : i < (putCmds maxSetSize b).length)
    (hfail : oracle i = some e)
    (hbefore : ∀ j, j < i → oracle j = none) :
    Put maxSetSize oracle b s = (foldCmds ((putCmds maxSetSize b).take i) s, some e) :=
  runCmds_first_fail (putCmds maxSetSize b) oracle s i e hi hfail hbefore

/-- Witness for C6: a two-command batch whose second `conn.Do` call fails;
the first command's effect remains applied and the error is returned. -/
theorem putFirstFailureAborts_witness :
    Put 100 (fun n => if n = 1 then some "boom" else none)
        (PutBatch.AddUpdate NewListDeltaBatchBuilder "u" "l" "c" 5) Store.empty =
      (foldCmds
        ((putCmds 100 (PutBatch.AddUpdate NewListDeltaBatchBuilder "u" "l" "c" 5)).take 1)
        Store.empty, some "boom") :=
  putFirstFailureAborts 100 (PutBatch.AddUpdate NewListDeltaBatchBuilder "u" "l" "c" 5)
    Store.empty (fun n => if n = 1 then some "boom" else none) 1 "boom"
    (by decide) (by decide)
    (fun j hj => by interval_cases j; decide)

/-- Claim C7: `NewDAL` succeeds exactly when the applied options supply
cluster options with a non-empty bootstrap host and the initial cluster
topology refresh succeeds; in every other case it returns an error and no
DAL. -/
theorem newDALOkIff (options : List (redisDAL → redisDAL)) (refreshErr : Option String) :
    (∃ d, NewDAL options refreshErr = Except.ok d) ↔
      (∃ o, (options.foldl (fun r opt => opt r) ({} : redisDAL)).clusterOpts = some o ∧
        o.BoostrapHost ≠ "" ∧ refreshErr = none) := by
  unfold NewDAL
  cases hco : (options.foldl (fun r opt => opt r) ({} : redisDAL)).clusterOpts with
  | none => simp [hco]
  | some o =>
    by_cases hh : o.BoostrapHost = ""
    · simp [hco, hh]
    · cases refreshErr <;> simp [hco, hh]

/-- Claim C8: `AddUpdate` appends exactly one update mutation and
`AddDelete` exactly one delete mutation (each leaving the other list
untouched), both total on all strings including empty ones; `Build`
returns the accumulated batch itself (the Go builder hands out its batch
pointer), so `Add*` calls made after `Build` keep accumulating into the
very batch `Build` returned. -/
theorem builderAccumulates (b : PutBatch) (u l c : String) (t : Int) :
    (b.AddUpdate u l c t).updates =
        b.updates ++ [{ userID := u, listID := l, contactID := c, updatedAt := t }] ∧
    (b.AddUpdate u l c t).deletes = b.deletes ∧
    (b.AddDelete u l c).deletes = b.deletes ++ [{ userID := u, listID := l, contactID := c }] ∧
    (b.AddDelete u l c).updates = b.updates ∧
    b.Build = b ∧
    (b.Build.AddUpdate u l c t).Build = b.AddUpdate u l c t ∧
    (b.Build.AddDelete u l c).Build = b.AddDelete u l c ∧
    (NewListDeltaBatchBuilder.AddUpdate "" "" "" t).updates =
      [{ userID := "", listID := "", contactID := "", updatedAt := t }] ∧
    (NewListDeltaBatchBuilder.AddDelete "" "" "").deletes =
      [{ userID := "", listID := "", contactID := "" }] :=
  ⟨rfl, rfl, rfl, rfl, rfl, rfl, rfl, rfl, rfl⟩

/-- Claim C4, part of the score encoding: `maxRedisValue` is 2^53, the
stored score of an update is `maxRedisValue - updatedAt` (computed in Go
`int64`, which does not wrap on realistic epoch seconds), the encoding is
strictly antitone, and a strictly smaller score means a strictly earlier
position in the rank order `zle`. -/
theorem scoreInversionAntitone (t1 t2 : Int) (m1 m2 : String)
    (hlo : -(2 ^ 62) ≤ t1) (hhi : t2 ≤ 2 ^ 62) (hlt : t1 < t2) :
    maxRedisValue = 2 ^ 53 ∧
    insertScore t1 = maxRedisValue - t1 ∧
    insertScore t2 = maxRedisValue - t2 ∧
    insertScore t2 < insertScore t1 ∧
    zle (m2, insertScore t2) (m1, insertScore t1) ∧
    ¬ zle (m1, insertScore t1) (m2, insertScore t2) ∧
    (∀ (b : PutBatch) (k : Int), ∀ w ∈ b.updates,
      Cmd.zaddCmd (createKey w.userID w.listID) (insertScore w.updatedAt) w.contactID ∈
        putCmds k b) := by
  have hanti : insertScore t2 < insertScore t1 := insertScore_anti hlo hhi hlt
  refine ⟨by norm_num [maxRedisValue],
    insertScore_eq t1 hlo (le_of_lt (lt_of_lt_of_le hlt hhi)),
    insertScore_eq t2 (le_trans hlo hlt.le) hhi,
    hanti, Or.inl hanti, ?_, ?_⟩
  · intro hcontra
    rcases hcontra with h | ⟨he, _⟩
    · exact absurd hanti (not_lt.mpr h.le)
    · exact absurd he (ne_of_gt hanti)
  · intro b k w hw
    unfold putCmds updCmds
    exact List.mem_append_left _ (List.mem_append_left _ (List.mem_map_of_mem _ hw))

/-- Witness for C4 at epoch seconds 0 and 1. -/
theorem scoreInversionAntitone_witness :
    insertScore 1 < insertScore 0 :=
  (scoreInversionAntitone 0 1 "a" "b" (by norm_num) (by norm_num) (by norm_num)).2.2.2.1

/-- Counterexample to C2 as stated: `createKey` does not escape the `_`
separator, so the two distinct pairs `("a_b", "c")` and `("a", "b_c")`
collide on the same OwnerKey `"a_b_c"`. -/
theorem createKeyCollision :
    createKey "a_b" "c" = createKey "a" "b_c" ∧
    ("a_b", "c") ≠ (("a", "b_c") : String × String) := by
  exact ⟨rfl, by decide⟩

/-- List form of separator-based splitting: if the separator occurs in
neither prefix, the decomposition around its first occurrence is unique. -/
theorem sep_append_inj (x : Char) (u1 : List Char) :
    ∀ (u2 l1 l2 : List Char), x ∉ u1 → x ∉ u2 →
      u1 ++ x :: l1 = u2 ++ x :: l2 → u1 = u2 ∧ l1 = l2 := by
  induction u1 with
  | nil =>
    intro u2 l1 l2 h1 h2 heq
    cases u2 with
    | nil => simpa using heq
    | cons b u2t =>
      simp only [List.nil_append, List.cons_append, List.cons.injEq] at heq
      exfalso
      apply h2
      rw [heq.1]
      exact List.mem_cons_self b u2t
  | cons a u1t ih =>
    intro u2 l1 l2 h1 h2 heq
    cases u2 with
    | nil =>
      simp only [List.cons_append, List.nil_append, List.cons.injEq] at heq
      exfalso
      apply h1
      rw [← heq.1]
      exact List.mem_cons_self a u1t
    | cons b u2t =>
      simp only [List.cons_append, List.cons.injEq] at heq
      obtain ⟨hab, ht⟩ := heq
      obtain ⟨hu, hl⟩ := ih u2t l1 l2 (fun hx => h1 (List.mem_cons_of_mem a hx))
        (fun hx => h2 (List.mem_cons_of_mem b hx)) ht
      exact ⟨by rw [hab, hu], hl⟩

/-- The character decomposition of an OwnerKey. -/
theorem createKey_data (u l : String) :
    (createKey u l).data = u.data ++ '_' :: l.data := by
  simp [createKey, String.data_append]

/-- Claim C2 as amended: `createKey` is a pure function of its arguments
(the same pair always yields the same key byte-for-byte), and it is
injective on pairs whose ownerID contains no `_` separator; pairs whose
ownerID contains `_` may collide (see the counterexample). -/
theorem createKeyInjOnSepFree (u1 l1 u2 l2 : String)
    (h1 : '_' ∉ u1.data) (h2 : '_' ∉ u2.data)
    (heq : createKey u1 l1 = createKey u2 l2) : u1 = u2 ∧ l1 = l2 := by
  have hdata : u1.data ++ '_' :: l1.data = u2.data ++ '_' :: l2.data := by
    rw [← createKey_data, ← createKey_data, heq]
  obtain ⟨hu, hl⟩ := sep_append_inj '_' u1.data u2.data l1.data l2.data h1 h2 hdata
  exact ⟨String.ext hu, String.ext hl⟩

/-- Witness for amended C2 at concrete separator-free inputs. -/
theorem createKeyInjOnSepFree_witness : ("ab" : String) = "ab" ∧ ("c" : String) = "c" :=
  createKeyInjOnSepFree "ab" "c" "ab" "c" (by decide) (by decide) rfl

/-- Claim C1 fails on the code (code bug): `Get` issues
`ZRANGE key 0 maxSize`, whose stop index is inclusive, so on a key holding
four members a successful `Get(u, l, 3)` returns all four members —
one more than `maxSize` — contradicting the interface's `maxSize`
contract. -/
theorem getReturnsMaxSizePlusOne :
    Get (fun k => if k = "u_l" then [("a", 1), ("b", 2), ("c", 3), ("d", 4)] else [])
        "u" "l" 3 = ["a", "b", "c", "d"] ∧
    ¬ (Get (fun k => if k = "u_l" then [("a", 1), ("b", 2), ("c", 3), ("d", 4)] else [])
        "u" "l" 3).length ≤ 3 := by
  exact ⟨by decide, by decide⟩

/-- Counterexample to C10 as stated: `WithMaxSortedBuffer (-1)` is passed
through unchanged by `NewDAL` — only an exact 0 triggers the default — so
a DAL with `maxSetSize = -1 < 1` can be constructed. -/
theorem newDALNegativeBufferPassthrough :
    NewDAL [WithClusterOptions (some hostOpts), WithMaxSortedBuffer (-1)] none =
      Except.ok { hasMetricsLogger := true, maxSetSize := -1, clusterOpts := some hostOpts } ∧
    ¬ (1 : Int) ≤ -1 := by
  exact ⟨rfl, by decide⟩

/-- Claim C10 as amended: when the applied options leave `maxSetSize` at 0
— the caller omitted `WithMaxSortedBuffer` or passed
`WithMaxSortedBuffer 0` — `NewDAL` silently sets it to the default 100 on
every successful construction (so `maxSetSize ≥ 1` holds in those two
cases; a negative explicit value, however, is passed through unchanged). -/
theorem newDALDefaultBuffer (options : List (redisDAL → redisDAL)) (refreshErr : Option String)
    (d : redisDAL)
    (hzero : (options.foldl (fun r opt => opt r) ({} : redisDAL)).maxSetSize = 0)
    (hok : NewDAL options refreshErr = Except.ok d) :
    d.maxSetSize = 100 ∧ 1 ≤ d.maxSetSize := by
  simp only [NewDAL] at hok
  rcases hco : (options.foldl (fun r opt => opt r) ({} : redisDAL)).clusterOpts with _ | o
  · simp only [hco] at hok
    exact absurd hok (by simp)
  · simp only [hco] at hok
    by_cases hh : o.BoostrapHost = ""
    · rw [if_pos hh] at hok
      exact absurd hok (by simp)
    · rw [if_neg hh] at hok
      cases refreshErr with
      | some e => exact absurd hok (by simp)
      | none =>
        simp only [Except.ok.injEq] at hok
        rw [← hok]
        refine ⟨?_, ?_⟩ <;> norm_num [hzero, defaultMaxSortedSetBuffer]

/-- Witness for amended C10: omitting `WithMaxSortedBuffer` yields a DAL
with `maxSetSize = 100`. -/
theorem newDALDefaultBuffer_witness :
    ({ hasMetricsLogger := true, maxSetSize := 100, clusterOpts := some hostOpts }
        : redisDAL).maxSetSize = 100 ∧
    1 ≤ ({ hasMetricsLogger := true, maxSetSize := 100, clusterOpts := some hostOpts }
        : redisDAL).maxSetSize :=
  newDALDefaultBuffer [WithClusterOptions (some hostOpts)] none
    { hasMetricsLogger := true, maxSetSize := 100, clusterOpts := some hostOpts } (by decide) rfl

/-! ## Fold evaluation helpers -/

/-- `foldCmds` on the empty command list. -/
theorem foldCmds_nil (s : Store) : foldCmds [] s = s := rfl

/-- `foldCmds` step. -/
theorem foldCmds_cons (c : Cmd) (cs : List Cmd) (s : Store) :
    foldCmds (c :: cs) s = foldCmds cs (applyCmd c s) := rfl

/-- `foldCmds` splits over concatenation. -/
theorem foldCmds_append (l1 l2 : List Cmd) (s : Store) :
    foldCmds (l1 ++ l2) s = foldCmds l2 (foldCmds l1 s) := by
  simp [foldCmds, List.foldl_append]

/-! ## Membership facts about the sorted-set operations -/

/-- `zrem` only removes entries. -/
theorem mem_keysOf_zrem {c m : String} {z : ZSet} (h : c ∈ keysOf (zrem m z)) :
    c ∈ keysOf z := by
  simp only [keysOf, zrem, List.mem_map] at h ⊢
  obtain ⟨p, hp, he⟩ := h
  exact ⟨p, (List.mem_filter.mp hp).1, he⟩

/-- `zrem` removes the named member. -/
theorem not_mem_keysOf_zrem_self (m : String) (z : ZSet) : m ∉ keysOf (zrem m z) :=
  not_mem_keysOf_filter m z

/-- Truncation only removes entries. -/
theorem mem_keysOf_ztrunc {c : String} {k : Int} {z : ZSet} (h : c ∈ keysOf (ztrunc k z)) :
    c ∈ keysOf z := by
  simp only [keysOf, ztrunc, List.mem_map] at h ⊢
  obtain ⟨p, hp, he⟩ := h
  exact ⟨p, List.mem_of_mem_take hp, he⟩

/-- Every member returned by `ZRANGE` is stored under the key. -/
theorem mem_of_mem_zrange0 {c : String} {stop : Int} {z : ZSet} (h : c ∈ zrange0 stop z) :
    c ∈ keysOf z := by
  simp only [zrange0, List.mem_map] at h
  obtain ⟨p, hp, he⟩ := h
  simp only [keysOf, List.mem_map]
  exact ⟨p, List.mem_of_mem_take hp, he⟩

/-- A run of pure `zrem` commands never adds a member to any key. -/
theorem zremFold_preserves_absent (ds : List contactDeleteMutation) :
    ∀ (s : Store) (key c : String), c ∉ keysOf (s key) →
      c ∉ keysOf (foldCmds
        (ds.map (fun x => Cmd.zremCmd (createKey x.userID x.listID) x.contactID)) s key) := by
  induction ds with
  | nil => intro s key c h; exact h
  | cons d0 ds ih =>
    intro s key c h
    rw [List.map_cons, foldCmds_cons]
    refine ih _ key c ?_
    simp only [applyCmd]
    by_cases hk : key = createKey d0.userID d0.listID
    · rw [if_pos hk]
      exact fun hc => h (mem_keysOf_zrem hc)
    · rw [if_neg hk]
      exact h

/-- After the delete phase, every deleted mutation's member is absent from
its key. -/
theorem zremFold_absent (ds : List contactDeleteMutation) :
    ∀ (s : Store) (d : contactDeleteMutation), d ∈ ds →
      d.contactID ∉ keysOf (foldCmds
        (ds.map (fun x => Cmd.zremCmd (createKey x.userID x.listID) x.contactID)) s
        (createKey d.userID d.listID)) := by
  induction ds with
  | nil => intro s d h; exact absurd h (List.not_mem_nil d)
  | cons d0 ds ih =>
    intro s d h
    rw [List.map_cons, foldCmds_cons]
    rcases List.mem_cons.mp h with rfl | hmem
    · refine zremFold_preserves_absent ds _ _ _ ?_
      simp only [applyCmd, if_pos rfl]
      exact not_mem_keysOf_zrem_self _ _
    · exact ih _ d hmem

/-- A run of pure truncation commands never adds a member to any key. -/
theorem truncFold_preserves_absent (ks : List String) (k : Int) :
    ∀ (s : Store) (key c : String), c ∉ keysOf (s key) →
      c ∉ keysOf (foldCmds (ks.map (fun x => Cmd.ztruncCmd x k)) s key) := by
  induction ks with
  | nil => intro s key c h; exact h
  | cons x ks ih =>
    intro s key c h
    rw [List.map_cons, foldCmds_cons]
    refine ih _ key c ?_
    simp only [applyCmd]
    by_cases hk : key = x
    · rw [if_pos hk]
      exact fun hc => h (mem_keysOf_ztrunc hc)
    · rw [if_neg hk]
      exact h

/-- Claim C5: within one `Put`, every `zrem` is issued after every `zadd`
(the delete loop runs after the update loop, whatever order the mutations
were added to the builder), so when a batch holds both an update and a
delete of the same (ownerID, listID, memberID) triple, after a successful
`Put` the member is gone from the key and a subsequent `Get` of any size
does not return it. -/
theorem deletePrecedence (maxSetSize : Int) (b : PutBatch) (s : Store)
    (u l c : String) (t : Int) (N : Int)
    (hu : ({ userID := u, listID := l, contactID := c, updatedAt := t } :
      contactWriteMutation) ∈ b.updates)
    (hd : ({ userID := u, listID := l, contactID := c } : contactDeleteMutation) ∈ b.deletes) :
    c ∉ keysOf (PutOk maxSetSize b s (createKey u l)) ∧
    c ∉ Get (PutOk maxSetSize b s) u l N := by
  have hput : PutOk maxSetSize b s =
      foldCmds (truncCmds maxSetSize b) (foldCmds (updCmds b ++ delCmds b) s) := by
    simp [PutOk, putCmds, foldCmds_append]
  have habs : c ∉ keysOf (foldCmds (updCmds b ++ delCmds b) s (createKey u l)) := by
    rw [foldCmds_append]
    have hz := zremFold_absent b.deletes (foldCmds (updCmds b) s)
      { userID := u, listID := l, contactID := c } hd
    simpa [delCmds] using hz
  have hkeys : c ∉ keysOf (PutOk maxSetSize b s (createKey u l)) := by
    rw [hput]
    have ht := truncFold_preserves_absent (touchedKeys b) maxSetSize
      (foldCmds (updCmds b ++ delCmds b) s) (createKey u l) c habs
    simpa [truncCmds] using ht
  exact ⟨hkeys, fun hm => hkeys (mem_of_mem_zrange0 hm)⟩

/-- Witness for C5 on a concrete two-mutation batch. -/
theorem deletePrecedence_witness :
    "c" ∉ keysOf (PutOk 100
      ((NewListDeltaBatchBuilder.AddUpdate "u" "l" "c" 5).AddDelete "u" "l" "c")
      Store.empty (createKey "u" "l")) ∧
    "c" ∉ Get (PutOk 100
      ((NewListDeltaBatchBuilder.AddUpdate "u" "l" "c" 5).AddDelete "u" "l" "c")
      Store.empty) "u" "l" 10 :=
  deletePrecedence 100 ((NewListDeltaBatchBuilder.AddUpdate "u" "l" "c" 5).AddDelete "u" "l" "c")
    Store.empty "u" "l" "c" 5 10 (by decide) (by decide)

/-! ## The truncation phase pointwise -/

/-- Nonnegative Redis start indexes resolve to themselves. -/
theorem effStart_nonneg (k : Int) (len : Nat) (hk : 0 ≤ k) : effStart k len = k.toNat := by
  simp [effStart, not_lt.mpr hk]

/-- Length of a truncated set, for a nonnegative cutoff. -/
theorem ztrunc_length (k : Int) (z : ZSet) (hk : 0 ≤ k) :
    (ztrunc k z).length = min k.toNat z.length := by
  simp [ztrunc, effStart_nonneg _ _ hk]

/-- Evaluating a run of truncations over distinct keys pointwise. -/
theorem truncFold_eval (ks : List String) (k : Int) :
    ∀ (s : Store), ks.Nodup → ∀ key,
      foldCmds (ks.map (fun x => Cmd.ztruncCmd x k)) s key =
        if key ∈ ks then ztrunc k (s key) else s key := by
  induction ks with
  | nil =>
    intro s _ key
    simp [foldCmds]
  | cons x ks ih =>
    intro s hnd key
    obtain ⟨hx, hnd2⟩ := List.nodup_cons.mp hnd
    rw [List.map_cons, foldCmds_cons, ih _ hnd2 key]
    simp only [applyCmd]
    by_cases hk : key = x
    · subst hk
      rw [if_neg (fun hmem => hx hmem), if_pos rfl, if_pos (List.mem_cons_self key ks)]
    · rw [if_neg hk]
      by_cases hmem : key ∈ ks
      · rw [if_pos hmem, if_pos (List.mem_cons_of_mem x hmem)]
      · rw [if_neg hmem, if_neg (fun hc => hmem ((List.mem_cons.mp hc).resolve_left hk))]

/-- The touched-key list is deduplicated. -/
theorem touchedKeys_nodup (b : PutBatch) : (touchedKeys b).Nodup := List.nodup_dedup _

/-- The state `Put` leaves at each key: the update/delete phases followed
by one truncation exactly when the key was touched. -/
theorem putOk_eval (k : Int) (b : PutBatch) (s : Store) (key : String) :
    PutOk k b s key =
      if key ∈ touchedKeys b then ztrunc k (foldCmds (updCmds b ++ delCmds b) s key)
      else foldCmds (updCmds b ++ delCmds b) s key := by
  have hput : PutOk k b s =
      foldCmds (truncCmds k b) (foldCmds (updCmds b ++ delCmds b) s) := by
    simp [PutOk, putCmds, foldCmds_append]
  rw [hput, truncCmds, truncFold_eval _ _ _ (touchedKeys_nodup b) key]

/-- Claim C3: after a successful `Put`, every touched key holds exactly
the rank-prefix `ZREMRANGEBYRANK key maxSetSize -1` leaves of the
update/delete-phase state: at most `maxSetSize` entries (exactly
`min maxSetSize` available), all of them present in the phase state, each
surviving entry ranked no later than every evicted entry (smaller score =
more recent `updatedAt`, the encoding being strictly antitone). -/
theorem boundedSizeInvariant (k : Int) (b : PutBatch) (s : Store) (key : String)
    (hk : 0 ≤ k) (hwf : StoreWF s) (htouched : key ∈ touchedKeys b) :
    PutOk k b s key = ztrunc k (foldCmds (updCmds b ++ delCmds b) s key) ∧
    (PutOk k b s key).length ≤ k.toNat ∧
    (PutOk k b s key).length = min k.toNat (foldCmds (updCmds b ++ delCmds b) s key).length ∧
    (∀ p ∈ PutOk k b s key, p ∈ foldCmds (updCmds b ++ delCmds b) s key) ∧
    (∀ p ∈ PutOk k b s key, ∀ q ∈ foldCmds (updCmds b ++ delCmds b) s key,
        q ∉ PutOk k b s key → zle p q) ∧
    (∀ t1 t2 : Int, -(2 ^ 62) ≤ t1 → t2 ≤ 2 ^ 62 → t1 < t2 →
        insertScore t2 < insertScore t1) := by
  have heq : PutOk k b s key = ztrunc k (foldCmds (updCmds b ++ delCmds b) s key) := by
    rw [putOk_eval, if_pos htouched]
  have hsorted : (foldCmds (updCmds b ++ delCmds b) s key).Sorted zle :=
    (storeWF_foldCmds _ hwf key).1
  refine ⟨heq, ?_, ?_, ?_, ?_, fun t1 t2 ha hb hc => insertScore_anti ha hb hc⟩
  · rw [heq, ztrunc_length _ _ hk]
    exact min_le_left _ _
  · rw [heq, ztrunc_length _ _ hk]
  · intro p hp
    rw [heq] at hp
    exact List.mem_of_mem_take (by simpa [ztrunc] using hp)
  · intro p hp q hq hqn
    rw [heq] at hp hqn
    have hqd : q ∈ (foldCmds (updCmds b ++ delCmds b) s key).drop
        (effStart k (foldCmds (updCmds b ++ delCmds b) s key).length) := by
      have hq2 : q ∈ (foldCmds (updCmds b ++ delCmds b) s key).take
            (effStart k (foldCmds (updCmds b ++ delCmds b) s key).length) ++
          (foldCmds (updCmds b ++ delCmds b) s key).drop
            (effStart k (foldCmds (updCmds b ++ delCmds b) s key).length) := by
        rw [List.take_append_drop]
        exact hq
      refine (List.mem_append.mp hq2).resolve_left ?_
      simpa [ztrunc] using hqn
    exact hsorted.rel_of_mem_take_of_mem_drop (by simpa [ztrunc] using hp) hqd

/-- Witness for C3: a concrete two-update batch with `maxSetSize = 1`. -/
theorem boundedSizeInvariant_witness :
    (PutOk 1 ((NewListDeltaBatchBuilder.AddUpdate "u" "l" "c1" 5).AddUpdate "u" "l" "c2" 9)
      Store.empty "u_l").length ≤ (1 : Int).toNat :=
  (boundedSizeInvariant 1
    ((NewListDeltaBatchBuilder.AddUpdate "u" "l" "c1" 5).AddUpdate "u" "l" "c2" 9)
    Store.empty "u_l" (by decide)
    (fun _ => ⟨List.sorted_nil, List.nodup_nil⟩) (by decide)).2.1

/-! ## Idempotence of re-applying the same update -/

/-- Filtering out an absent member is a no-op. -/
theorem filter_eq_self_of_not_mem_keys {c : String} {z : ZSet} (h : c ∉ keysOf z) :
    z.filter (fun p => p.1 != c) = z := by
  refine List.filter_eq_self.mpr ?_
  intro p hp
  have hne : p.1 ≠ c := fun he => h (he ▸ List.mem_map_of_mem Prod.fst hp)
  simpa using hne

/-- With unique member keys, splitting off the one entry of a present
member and re-consing it is a permutation. -/
theorem cons_filter_perm_of_mem :
    ∀ {z : ZSet} {c : String} {sc : Int}, (keysOf z).Nodup → (c, sc) ∈ z →
      List.Perm ((c, sc) :: z.filter (fun p => p.1 != c)) z := by
  intro z
  induction z with
  | nil =>
    intro c sc _ hm
    exact absurd hm (List.not_mem_nil _)
  | cons a z ih =>
    intro c sc hn hm
    rw [show keysOf (a :: z) = a.1 :: keysOf z from rfl, List.nodup_cons] at hn
    obtain ⟨ha, hnz⟩ := hn
    rcases List.mem_cons.mp hm with heq | hm2
    · have hfst : ¬ ((a.1 != c) = true) := by
        rw [← heq]
        simp
      rw [List.filter_cons, if_neg hfst]
      have hcz : c ∉ keysOf z := by
        intro hc
        apply ha
        rw [← heq]
        exact hc
      rw [filter_eq_self_of_not_mem_keys hcz, ← heq]
    · have hac : a.1 ≠ c := by
        intro he
        apply ha
        rw [he]
        exact List.mem_map_of_mem Prod.fst hm2
      have hfst : (a.1 != c) = true := by simpa using hac
      rw [List.filter_cons, if_pos hfst]
      exact (List.Perm.swap a (c, sc) _).trans ((ih hnz hm2).cons a)

/-- Upserting an entry already present with the same score is a no-op. -/
theorem zadd_mem_eq {z : ZSet} {c : String} {sc : Int} (hwf : ZWF z) (hm : (c, sc) ∈ z) :
    zadd c sc z = z := by
  refine List.eq_of_perm_of_sorted ?_ ?_ hwf.1
  · exact (List.perm_orderedInsert zle _ _).trans (cons_filter_perm_of_mem hwf.2 hm)
  · exact List.Sorted.orderedInsert _ _ (hwf.1.filter _)

/-- Ordered insertion of an entry dominating the whole list appends it. -/
theorem orderedInsert_eq_append {a : ZEntry} :
    ∀ {l : List ZEntry}, (∀ b ∈ l, ¬ zle a b) → List.orderedInsert zle a l = l ++ [a] := by
  intro l
  induction l with
  | nil => intro _; rfl
  | cons b l ih =>
    intro h
    rw [List.orderedInsert, if_neg (h b (List.mem_cons_self b l)),
      ih (fun x hx => h x (List.mem_cons_of_mem b hx))]
    rfl

/-- Key idempotence step: re-upserting the same (member, score) after a
nonnegative-rank truncation and truncating again changes nothing. -/
theorem ztrunc_zadd_idem {z : ZSet} (c : String) (sc k : Int) (hk : 0 ≤ k) (hwf : ZWF z) :
    ztrunc k (zadd c sc (ztrunc k (zadd c sc z))) = ztrunc k (zadd c sc z) := by
  set w := zadd c sc z with hw
  have hwwf : ZWF w := zwf_zadd c sc hwf
  have hTw : ztrunc k w = w.take k.toNat := by rw [ztrunc, effStart_nonneg _ _ hk]
  have hTwwf : ZWF (w.take k.toNat) := zwf_take _ hwwf
  have hcw : (c, sc) ∈ w :=
    (List.perm_orderedInsert zle _ _).mem_iff.mpr (List.mem_cons_self _ _)
  rw [hTw]
  by_cases hc : (c, sc) ∈ w.take k.toNat
  · rw [zadd_mem_eq hTwwf hc, ztrunc, effStart_nonneg _ _ hk, List.take_take, min_self]
  · have hcd : (c, sc) ∈ w.drop k.toNat := by
      have hsplit : (c, sc) ∈ w.take k.toNat ++ w.drop k.toNat := by
        rw [List.take_append_drop]
        exact hcw
      exact (List.mem_append.mp hsplit).resolve_left hc
    have hlt : k.toNat < w.length := by
      by_contra hge
      rw [List.drop_eq_nil_of_le (not_lt.mp hge)] at hcd
      exact absurd hcd (List.not_mem_nil _)
    have hlen : (w.take k.toNat).length = k.toNat := by
      rw [List.length_take]
      omega
    have hkeys : c ∉ keysOf (w.take k.toNat) := by
      intro hkc
      have hsplit : keysOf w = keysOf (w.take k.toNat) ++ keysOf (w.drop k.toNat) := by
        rw [keysOf, keysOf, keysOf, ← List.map_append, List.take_append_drop]
      have hnd := hwwf.2
      rw [hsplit, List.nodup_append] at hnd
      exact hnd.2.2 hkc (List.mem_map_of_mem Prod.fst hcd)
    have hforall : ∀ p ∈ w.take k.toNat, ¬ zle (c, sc) p := by
      intro p hp hle
      have hple : zle p (c, sc) := hwwf.1.rel_of_mem_take_of_mem_drop hp hcd
      have hpe : p = (c, sc) := antisymm hple hle
      exact hc (hpe ▸ hp)
    have hzadd : zadd c sc (w.take k.toNat) = w.take k.toNat ++ [(c, sc)] := by
      rw [zadd, filter_eq_self_of_not_mem_keys hkeys]
      exact orderedInsert_eq_append hforall
    rw [hzadd, ztrunc, effStart_nonneg _ _ hk,
      List.take_append_of_le_length (le_of_eq hlen.symm), List.take_take, min_self]

/-- Claim C9: re-applying the same `Update(u, l, c, t)` in a second
successfully applied single-update batch leaves the whole store exactly
equal to the state after the first `Put` — in particular the member's
entry and score are unchanged and no duplicate entry is created (the key
column stays duplicate-free). -/
theorem putIdempotentReUpdate (k : Int) (s : Store) (u l c : String) (t : Int)
    (hk : 0 ≤ k) (hwf : StoreWF s) :
    PutOk k (NewListDeltaBatchBuilder.AddUpdate u l c t)
        (PutOk k (NewListDeltaBatchBuilder.AddUpdate u l c t) s) =
      PutOk k (NewListDeltaBatchBuilder.AddUpdate u l c t) s ∧
    (keysOf (PutOk k (NewListDeltaBatchBuilder.AddUpdate u l c t) s (createKey u l))).Nodup := by
  set B := NewListDeltaBatchBuilder.AddUpdate u l c t with hB
  have hcmds : putCmds k B = [Cmd.zaddCmd (createKey u l) (insertScore t) c,
      Cmd.ztruncCmd (createKey u l) k] := by
    simp only [hB, putCmds, updCmds, delCmds, truncCmds, touchedKeys,
      NewListDeltaBatchBuilder, PutBatch.AddUpdate, List.nil_append, List.map_cons,
      List.map_nil, List.append_nil]
    rw [List.dedup_cons_of_not_mem (List.not_mem_nil _), List.dedup_nil]
    rfl
  have heval : ∀ (s0 : Store) (key : String), PutOk k B s0 key =
      if key = createKey u l then ztrunc k (zadd c (insertScore t) (s0 (createKey u l)))
      else s0 key := by
    intro s0 key
    rw [PutOk, hcmds, foldCmds_cons, foldCmds_cons, foldCmds_nil]
    simp only [applyCmd]
    by_cases hkey : key = createKey u l
    · simp [hkey]
    · simp [hkey]
  constructor
  · funext key
    rw [heval (PutOk k B s) key, heval s key, heval s (createKey u l), if_pos rfl]
    by_cases hkey : key = createKey u l
    · rw [if_pos hkey, if_pos hkey]
      exact ztrunc_zadd_idem c (insertScore t) k hk (hwf _)
    · rw [if_neg hkey, if_neg hkey]
  · exact (storeWF_foldCmds (putCmds k B) hwf (createKey u l)).2

/-- Witness for C9 on a concrete single-update batch. -/
theorem putIdempotentReUpdate_witness :
    (keysOf (PutOk 2 (NewListDeltaBatchBuilder.AddUpdate "u" "l" "c" 5) Store.empty
      (createKey "u" "l"))).Nodup :=
  (putIdempotentReUpdate 2 Store.empty "u" "l" "c" 5 (by decide)
    (fun _ => ⟨List.sorted_nil, List.nodup_nil⟩)).2

end ListSample
